import Mathlib

/-!
# Verification of the gofinance valuation core

Shallow embedding of the repository's valuation and IRR code
(`cash_flow.go`, the rate definitions of `src/unnamed/part_000`).

Conventions of the embedding:

* `float64` arithmetic is modelled by real numbers (`ℝ`); `math.Pow` is
  `Real.rpow`, `math.Exp` is `Real.exp`, `math.Log` is `Real.log`.
* Go's `time.Time` restricted to UTC (the only location the repository
  uses) is modelled by a normalized proleptic-Gregorian civil datetime
  `GoTime`; `toNanos` is the instant on the absolute nanosecond scale,
  which is what `Equal` / `Before` / `After` / `Sub` observe.
* `t.AddDate(1, 0, 0)` — the only `AddDate` call the repository makes —
  is embedded as `addOneYear`, mirroring Go's field-wise add followed by
  the normalization performed by `time.Date` (Feb 29 of a non-leap target
  year normalizes to Mar 1).
-/

/-- Nanoseconds in one hour (`time.Hour`). -/
def nsPerHour : ℤ := 3600000000000

/-- Nanoseconds in one day. -/
def nsPerDay : ℤ := 86400000000000

/-- Leap-year predicate; the condition `(y%4 == 0 && y%100 != 0) || y%400 == 0`
of `daysInYear` in `cash_flow.go` (Go's truncated `%` agrees with
divisibility testing for every sign of `y`). -/
def isLeap (y : ℤ) : Prop := (y % 4 = 0 ∧ y % 100 ≠ 0) ∨ y % 400 = 0

instance (y : ℤ) : Decidable (isLeap y) := by
  unfold isLeap; infer_instance

/-- `daysInYear` from `cash_flow.go`: 366 for a leap year, else 365. -/
def daysInYear (y : ℤ) : ℤ := if isLeap y then 366 else 365

/-- Cumulative days before month `m` in a non-leap year (Go's `daysBefore`
table inside the `time` package). Months outside `1..12` never arise for a
normalized datetime. -/
def daysBeforeMonth (m : ℤ) : ℤ :=
  if m ≤ 1 then 0
  else if m = 2 then 31
  else if m = 3 then 59
  else if m = 4 then 90
  else if m = 5 then 120
  else if m = 6 then 151
  else if m = 7 then 181
  else if m = 8 then 212
  else if m = 9 then 243
  else if m = 10 then 273
  else if m = 11 then 304
  else 334

/-- Number of days of month `m` in year `y`. -/
def daysInMonth (y m : ℤ) : ℤ :=
  if m = 2 then (if isLeap y then 29 else 28)
  else if m = 4 ∨ m = 6 ∨ m = 9 ∨ m = 11 then 30
  else 31

/-- Days from the epoch 0001-01-01 to `y`-01-01 in the proleptic Gregorian
calendar (the calendar Go's `time` package computes with; absolute offsets
cancel in every difference the repository takes). -/
def daysBeforeYear (y : ℤ) : ℤ :=
  365 * (y - 1) + (y - 1) / 4 - (y - 1) / 100 + (y - 1) / 400

/-- A civil UTC datetime: year, month, day and nanosecond-of-day. -/
structure Civil where
  y : ℤ
  m : ℤ
  d : ℤ
  nsod : ℤ
deriving DecidableEq

/-- The field ranges every Go `time.Time` presents through
`Year()/Month()/Day()/...`. -/
def Civil.Valid (c : Civil) : Prop :=
  1 ≤ c.m ∧ c.m ≤ 12 ∧ 1 ≤ c.d ∧ c.d ≤ daysInMonth c.y c.m ∧
    0 ≤ c.nsod ∧ c.nsod < nsPerDay

instance (c : Civil) : Decidable c.Valid := by
  unfold Civil.Valid; infer_instance

/-- Go's `time.Time` (UTC): a normalized civil datetime. -/
abbrev GoTime := {c : Civil // c.Valid}

/-- Nanoseconds since the epoch of the civil datetime `(y, m, d, ns)`. -/
def civilNanos (y m d ns : ℤ) : ℤ :=
  (daysBeforeYear y + daysBeforeMonth m +
      (if 2 < m ∧ isLeap y then 1 else 0) + (d - 1)) * nsPerDay + ns

/-- The absolute instant: nanoseconds since the epoch.  `Equal`, `Before`,
`After` and `Sub` of `time.Time` observe exactly this value. -/
def GoTime.toNanos (t : GoTime) : ℤ := civilNanos t.1.y t.1.m t.1.d t.1.nsod

/-- `t.Year()`. -/
def GoTime.year (t : GoTime) : ℤ := t.1.y

theorem daysBeforeYear_succ (y : ℤ) :
    daysBeforeYear (y + 1) = daysBeforeYear y + daysInYear y := by
  unfold daysBeforeYear daysInYear isLeap
  split <;> omega

theorem daysInMonth_pos (y m : ℤ) : 0 < daysInMonth y m := by
  unfold daysInMonth
  split
  · split <;> norm_num
  · split <;> norm_num

/-- `t.AddDate(1, 0, 0)`: same month, day and time-of-day in the next year,
normalized by `time.Date` — a Feb 29 that does not exist in the next year
becomes Mar 1 (day overflow is additive in Go's `time.Date`). -/
def addOneYear (t : GoTime) : GoTime :=
  if h : t.1.d ≤ daysInMonth (t.1.y + 1) t.1.m then
    ⟨⟨t.1.y + 1, t.1.m, t.1.d, t.1.nsod⟩,
      ⟨t.2.1, t.2.2.1, t.2.2.2.1, h, t.2.2.2.2.2.1, t.2.2.2.2.2.2⟩⟩
  else
    ⟨⟨t.1.y + 1, 3, 1, t.1.nsod⟩, by
      refine ⟨by norm_num, by norm_num, by norm_num, ?_, t.2.2.2.2.2.1, t.2.2.2.2.2.2⟩
      show (1:ℤ) ≤ daysInMonth (t.1.y + 1) 3
      have h3 := daysInMonth_pos (t.1.y + 1) 3
      omega⟩

theorem daysBeforeYear_succ_ge (y : ℤ) :
    daysBeforeYear y + 365 ≤ daysBeforeYear (y + 1) ∧
      daysBeforeYear (y + 1) ≤ daysBeforeYear y + 366 := by
  have h := daysBeforeYear_succ y
  unfold daysInYear at h
  split at h <;> omega

theorem civilNanos_lt_same_day (y m d ns : ℤ) :
    civilNanos y m d ns < civilNanos (y + 1) m d ns := by
  unfold civilNanos
  have h := daysBeforeYear_succ_ge y
  have h1 : (0:ℤ) ≤ (if 2 < m ∧ isLeap y then (1:ℤ) else 0) ∧
      (if 2 < m ∧ isLeap y then (1:ℤ) else 0) ≤ 1 := by split <;> norm_num
  have h2 : (0:ℤ) ≤ (if 2 < m ∧ isLeap (y + 1) then (1:ℤ) else 0) ∧
      (if 2 < m ∧ isLeap (y + 1) then (1:ℤ) else 0) ≤ 1 := by split <;> norm_num
  unfold nsPerDay
  omega

theorem civilNanos_lt_overflow (y m d ns : ℤ) (hd1 : 1 ≤ d)
    (hd2 : d ≤ daysInMonth y m) (hov : ¬ d ≤ daysInMonth (y + 1) m) :
    civilNanos y m d ns < civilNanos (y + 1) 3 1 ns := by
  unfold daysInMonth at hd2 hov
  by_cases h2 : m = 2
  case neg =>
    exfalso
    rw [if_neg h2] at hd2 hov
    by_cases h4 : m = 4 ∨ m = 6 ∨ m = 9 ∨ m = 11
    · rw [if_pos h4] at hd2 hov; omega
    · rw [if_neg h4] at hd2 hov; omega
  case pos =>
    subst h2
    rw [if_pos rfl] at hd2 hov
    have hly : isLeap y := by
      by_contra hly
      rw [if_neg hly] at hd2
      by_cases hl' : isLeap (y + 1)
      · rw [if_pos hl'] at hov; omega
      · rw [if_neg hl'] at hov; omega
    rw [if_pos hly] at hd2
    have hly' : ¬ isLeap (y + 1) := by
      intro h
      rw [if_pos h] at hov
      omega
    rw [if_neg hly'] at hov
    have hds := daysBeforeYear_succ y
    unfold daysInYear at hds
    rw [if_pos hly] at hds
    unfold civilNanos
    rw [if_neg (show ¬ ((2:ℤ) < 2 ∧ isLeap y) from fun hc => absurd hc.1 (by norm_num)),
      if_neg (show ¬ ((2:ℤ) < 3 ∧ isLeap (y + 1)) from fun hc => hly' hc.2)]
    have h59 : daysBeforeMonth 3 = 59 := by norm_num [daysBeforeMonth]
    have h31 : daysBeforeMonth 2 = 31 := by norm_num [daysBeforeMonth]
    unfold nsPerDay
    omega

/-- Adding one calendar year moves the instant strictly forward (by 365,
366 or — across a skipped Feb 29 — 366 days). -/
theorem toNanos_lt_addOneYear (t : GoTime) :
    t.toNanos < (addOneYear t).toNanos := by
  unfold addOneYear
  by_cases h : t.1.d ≤ daysInMonth (t.1.y + 1) t.1.m
  · rw [dif_pos h]
    exact civilNanos_lt_same_day t.1.y t.1.m t.1.d t.1.nsod
  · rw [dif_neg h]
    exact civilNanos_lt_overflow t.1.y t.1.m t.1.d t.1.nsod
      t.2.2.2.1 t.2.2.2.2.1 h

/-- The whole-calendar-year counting loop of `yearsBetween`
(`cash_flow.go` lines 78–87): advance `a` by one calendar year while the
result does not pass `b`; return the number of advances and the final `a`. -/
def fullYearsLoop (a b : GoTime) : ℕ × GoTime :=
  if (addOneYear a).toNanos ≤ b.toNanos then
    let p := fullYearsLoop (addOneYear a) b
    (p.1 + 1, p.2)
  else (0, a)
termination_by (b.toNanos - a.toNanos).toNat
decreasing_by
  have h1 := toNanos_lt_addOneYear a
  omega

theorem fullYearsLoop_snd_le (a b : GoTime) (h : a.toNanos ≤ b.toNanos) :
    ((fullYearsLoop a b).2).toNanos ≤ b.toNanos := by
  rw [fullYearsLoop]
  split
  · next h' => simpa using fullYearsLoop_snd_le (addOneYear a) b h'
  · simpa using h
termination_by (b.toNanos - a.toNanos).toNat
decreasing_by
  have h1 := toNanos_lt_addOneYear a
  omega

theorem fullYearsLoop_fst_zero (a b : GoTime)
    (h : (fullYearsLoop a b).1 = 0) : (fullYearsLoop a b).2 = a := by
  rw [fullYearsLoop] at h ⊢
  split at h
  · next h' => simp at h
  · next h' => rw [if_neg h']

/-- `Duration.Hours()` of a nanosecond count: Go computes
`float64(d / Hour) + float64(d % Hour) / (60*60*1e9)` with truncated
integer division; over the reals this is exactly `d / (3600·10⁹)`. -/
noncomputable def durationHours (d : ℤ) : ℝ :=
  ((d.tdiv nsPerHour : ℤ) : ℝ) + ((d.tmod nsPerHour : ℤ) : ℝ) / (nsPerHour : ℝ)

theorem durationHours_eq (d : ℤ) : durationHours d = (d : ℝ) / (nsPerHour : ℝ) := by
  unfold durationHours
  have hne : ((nsPerHour : ℤ) : ℝ) ≠ 0 := by norm_num [nsPerHour]
  have h : ((d.tdiv nsPerHour : ℤ) : ℝ) * ((nsPerHour : ℤ) : ℝ) +
      ((d.tmod nsPerHour : ℤ) : ℝ) = (d : ℝ) := by
    exact_mod_cast congrArg (fun z : ℤ => (z : ℝ)) (Int.tdiv_add_tmod' d nsPerHour)
  field_simp
  linarith [h]

/-- Core of `yearsBetween` for `a` not after `b`: whole years plus the
leftover fraction of the year at the advanced instant
(`cash_flow.go` lines 77–97, after order normalisation). -/
noncomputable def yearsCore (a b : GoTime) : ℝ :=
  let p := fullYearsLoop a b
  if p.2.toNanos = b.toNanos then (p.1 : ℝ)
  else
    (p.1 : ℝ) + durationHours (b.toNanos - p.2.toNanos) / 24 / (daysInYear p.2.year : ℝ)

/-- `yearsBetween` from `cash_flow.go`: 0 on equal instants, otherwise the
order is normalised (keeping a sign) and whole years plus the fraction of
the next year are counted. -/
noncomputable def yearsBetween (a b : GoTime) : ℝ :=
  if a.toNanos = b.toNanos then 0
  else if b.toNanos < a.toNanos then -(yearsCore b a) else yearsCore a b

/-- C6: `yearsBetween` is antisymmetric and vanishes on equal instants.
The code normalises the argument order keeping a sign, so both directions
compute the same magnitude and differ only by the (exact) negation. -/
theorem yearFraction_antisymm :
    (∀ a b : GoTime, yearsBetween a b = -(yearsBetween b a)) ∧
      (∀ a : GoTime, yearsBetween a a = 0) := by
  constructor
  · intro a b
    unfold yearsBetween
    rcases lt_trichotomy a.toNanos b.toNanos with h | h | h
    · rw [if_neg (ne_of_lt h), if_neg (not_lt.mpr h.le),
        if_neg (ne_of_gt h), if_pos h, neg_neg]
    · rw [if_pos h, if_pos h.symm, neg_zero]
    · rw [if_neg (ne_of_gt h), if_pos h, if_neg (ne_of_lt h),
        if_neg (not_lt.mpr h.le)]
  · intro a
    unfold yearsBetween
    rw [if_pos rfl]

/-- C5: one calendar year forward is exactly 1: the first loop step lands
exactly on `b`, so `fullYears = 1` and no fractional remainder is taken. -/
theorem yearFraction_one_calendar_year (a : GoTime) :
    yearsBetween a (addOneYear a) = 1 := by
  have hlt := toNanos_lt_addOneYear a
  unfold yearsBetween
  rw [if_neg (ne_of_lt hlt), if_neg (not_lt.mpr hlt.le)]
  have hloop : fullYearsLoop a (addOneYear a) = (1, addOneYear a) := by
    rw [fullYearsLoop, if_pos le_rfl, fullYearsLoop,
      if_neg (not_le.mpr (toNanos_lt_addOneYear (addOneYear a)))]
  unfold yearsCore
  simp [hloop]

/-!
## Rates (`src/unnamed/part_000`)

`math.Pow` is embedded as `Real.rpow` (the `ℝ`-exponent power `x ^ y`),
`math.Exp` as `Real.exp` and `math.Log` as `Real.log`.
-/

/-- Annual percentage rate with a compounding frequency. -/
structure RateAnnualPercentage where
  Value : ℝ
  PeriodsPerYear : ℝ

/-- `DiscountFactor = (1 + APR/n)^(-n·t)`. -/
noncomputable def RateAnnualPercentage.DiscountFactor
    (r : RateAnnualPercentage) (years : ℝ) : ℝ :=
  (1 + r.Value / r.PeriodsPerYear) ^ (-r.PeriodsPerYear * years)

/-- `EAR = (1 + APR/n)^n − 1`. -/
noncomputable def RateAnnualPercentage.RateAnnualEffective
    (r : RateAnnualPercentage) : ℝ :=
  (1 + r.Value / r.PeriodsPerYear) ^ r.PeriodsPerYear - 1

/-- `CR = ln(1 + EAR)`. -/
noncomputable def RateAnnualPercentage.RateContinuous
    (r : RateAnnualPercentage) : ℝ :=
  Real.log (1 + r.RateAnnualEffective)

/-- Periodic effective rate with a compounding frequency. -/
structure RateEffective where
  Value : ℝ
  PeriodsPerYear : ℝ

/-- `DiscountFactor = (1 + ER)^(-n·t)`. -/
noncomputable def RateEffective.DiscountFactor
    (r : RateEffective) (years : ℝ) : ℝ :=
  (1 + r.Value) ^ (-r.PeriodsPerYear * years)

/-- `EAR = (1 + ER)^n − 1`. -/
noncomputable def RateEffective.RateAnnualEffective (r : RateEffective) : ℝ :=
  (1 + r.Value) ^ r.PeriodsPerYear - 1

/-- `CR = ln(1 + EAR)`. -/
noncomputable def RateEffective.RateContinuous (r : RateEffective) : ℝ :=
  Real.log (1 + r.RateAnnualEffective)

/-- Continuously compounded rate. -/
structure RateContinuous where
  Value : ℝ

/-- `DiscountFactor = e^(CR·(−t))`. -/
noncomputable def RateContinuous.DiscountFactor
    (r : RateContinuous) (years : ℝ) : ℝ :=
  Real.exp (r.Value * -years)

/-- `EAR = e^CR − 1`. -/
noncomputable def RateContinuous.RateAnnualEffective (r : RateContinuous) : ℝ :=
  Real.exp r.Value - 1

/-- `CR = CR`. -/
def RateContinuous.RateContinuous (r : RateContinuous) : ℝ := r.Value

/-- C8: all three variants discount a zero-year distance to exactly 1, for
every parameter value (`math.Pow(x, 0) == 1` for every `x`, and `e⁰ = 1`). -/
theorem discountFactor_zero_eq_one :
    (∀ v n : ℝ, RateAnnualPercentage.DiscountFactor ⟨v, n⟩ 0 = 1) ∧
      (∀ v n : ℝ, RateEffective.DiscountFactor ⟨v, n⟩ 0 = 1) ∧
        (∀ v : ℝ, RateContinuous.DiscountFactor ⟨v⟩ 0 = 1) := by
  refine ⟨fun v n => ?_, fun v n => ?_, fun v => ?_⟩
  · unfold RateAnnualPercentage.DiscountFactor
    rw [mul_zero, Real.rpow_zero]
  · unfold RateEffective.DiscountFactor
    rw [mul_zero, Real.rpow_zero]
  · unfold RateContinuous.DiscountFactor
    rw [neg_zero, mul_zero, Real.exp_zero]

/-- C7: variants denoting the same economic rate have the same continuous
form.  `RateEffective{v, n}` and `RateAnnualPercentage{n·v, n}` agree for
every `v` and every nonzero `n` (exactly, hence within any tolerance), and
a `RateContinuous` built from that continuous value returns it unchanged. -/
theorem rateContinuous_agrees (v n : ℝ) (hn : n ≠ 0) :
    RateAnnualPercentage.RateContinuous ⟨n * v, n⟩
        = RateEffective.RateContinuous ⟨v, n⟩ ∧
      RateContinuous.RateContinuous ⟨RateEffective.RateContinuous ⟨v, n⟩⟩
        = RateEffective.RateContinuous ⟨v, n⟩ := by
  constructor
  · unfold RateAnnualPercentage.RateContinuous RateEffective.RateContinuous
      RateAnnualPercentage.RateAnnualEffective RateEffective.RateAnnualEffective
    show Real.log (1 + ((1 + n * v / n) ^ n - 1))
      = Real.log (1 + ((1 + v) ^ n - 1))
    rw [mul_div_cancel_left₀ v hn]
  · rfl

theorem rateContinuous_agrees_witness :
    ((1:ℝ) ≠ 0) ∧
      (RateAnnualPercentage.RateContinuous ⟨1 * 0.05, 1⟩
          = RateEffective.RateContinuous ⟨0.05, 1⟩ ∧
        RateContinuous.RateContinuous ⟨RateEffective.RateContinuous ⟨0.05, 1⟩⟩
          = RateEffective.RateContinuous ⟨0.05, 1⟩) :=
  ⟨one_ne_zero, rateContinuous_agrees 0.05 1 one_ne_zero⟩

/-- C10: `RateEffective` with zero compounding periods: the exponent
`-n·t` and the conversion exponent `n` are both 0, so every operation
returns a finite identity value (1, 0 and 0 respectively). -/
theorem rateEffective_zero_periods (v years : ℝ) :
    RateEffective.DiscountFactor ⟨v, 0⟩ years = 1 ∧
      RateEffective.RateAnnualEffective ⟨v, 0⟩ = 0 ∧
        RateEffective.RateContinuous ⟨v, 0⟩ = 0 := by
  refine ⟨?_, ?_, ?_⟩
  · unfold RateEffective.DiscountFactor
    rw [show -(0:ℝ) * years = 0 by ring, Real.rpow_zero]
  · unfold RateEffective.RateAnnualEffective
    rw [Real.rpow_zero, sub_self]
  · unfold RateEffective.RateContinuous RateEffective.RateAnnualEffective
    rw [Real.rpow_zero, sub_self, add_zero, Real.log_one]

/-!
## Cash flows and valuation (`cash_flow.go`)
-/

/-- The Go `Rate` interface: a capability record of the three methods. -/
structure Rate where
  DiscountFactor : ℝ → ℝ
  RateAnnualEffective : ℝ
  RateContinuous : ℝ

/-- A single dated cash flow. -/
structure CashFlow where
  Value : ℝ
  Date : GoTime

/-- A collection of cash flows (Go slice `CashFlows`). -/
abbrev CashFlows := List CashFlow

/-- `YearsFrom`: signed year distance from the valuation date. -/
noncomputable def CashFlow.YearsFrom (cf : CashFlow) (valuationDate : GoTime) : ℝ :=
  yearsBetween valuationDate cf.Date

/-- `PresentValue`: `Value * r.DiscountFactor(YearsFrom(valuationDate))`. -/
noncomputable def CashFlow.PresentValue (cf : CashFlow) (r : Rate)
    (valuationDate : GoTime) : ℝ :=
  cf.Value * r.DiscountFactor (cf.YearsFrom valuationDate)

/-- `NPV`: the `npv += cf.PresentValue(...)` accumulation loop. -/
noncomputable def CashFlows.NPV (cfs : CashFlows) (r : Rate)
    (valuationDate : GoTime) : ℝ :=
  cfs.foldl (fun npv cf => npv + cf.PresentValue r valuationDate) 0

theorem foldl_add_eq_sum (f : CashFlow → ℝ) (x : ℝ) (l : List CashFlow) :
    l.foldl (fun acc cf => acc + f cf) x = x + (l.map f).sum := by
  induction l generalizing x with
  | nil => simp
  | cons c l ih => simp [ih, add_assoc]

theorem yearsCore_pos (a b : GoTime) (h : a.toNanos < b.toNanos) :
    0 < yearsCore a b := by
  unfold yearsCore
  have hle := fullYearsLoop_snd_le a b h.le
  by_cases he : (fullYearsLoop a b).2.toNanos = b.toNanos
  · rw [if_pos he]
    rcases Nat.eq_zero_or_pos (fullYearsLoop a b).1 with h0 | h1
    · exfalso
      have h2 := fullYearsLoop_fst_zero a b h0
      rw [h2] at he
      omega
    · exact_mod_cast h1
  · rw [if_neg he]
    have hdy : (0:ℝ) < ((daysInYear (fullYearsLoop a b).2.year : ℤ) : ℝ) := by
      have : (0:ℤ) < daysInYear (fullYearsLoop a b).2.year := by
        unfold daysInYear; split <;> norm_num
      exact_mod_cast this
    have hΔ : (0:ℝ) < ((b.toNanos - (fullYearsLoop a b).2.toNanos : ℤ) : ℝ) := by
      exact_mod_cast (by omega : (0:ℤ) < b.toNanos - (fullYearsLoop a b).2.toNanos)
    have hH : (0:ℝ) < ((nsPerHour : ℤ) : ℝ) := by norm_num [nsPerHour]
    have hfrac : 0 < durationHours (b.toNanos - (fullYearsLoop a b).2.toNanos)
        / 24 / ((daysInYear (fullYearsLoop a b).2.year : ℤ) : ℝ) := by
      rw [durationHours_eq]
      exact div_pos (div_pos (div_pos hΔ hH) (by norm_num)) hdy
    have hn : (0:ℝ) ≤ ((fullYearsLoop a b).1 : ℝ) := Nat.cast_nonneg _
    linarith

/-- C4: `NPV` is exactly the sum over the collection of
`value × DiscountFactor(yearsBetween(valuationDate, flow date))`, for every
rate record; and the `yearsBetween` argument is signed — positive for flows
after the valuation instant, negative for flows before it.  (The embedding
is purely functional: `NPV` only folds over the list, mirroring the
read-only `range` loop of the Go code.) -/
theorem npv_is_sum_of_present_values :
    (∀ (cfs : CashFlows) (r : Rate) (t : GoTime),
      CashFlows.NPV cfs r t
        = (cfs.map (fun cf =>
            cf.Value * r.DiscountFactor (yearsBetween t cf.Date))).sum) ∧
      (∀ a b : GoTime, a.toNanos < b.toNanos → 0 < yearsBetween a b) ∧
        (∀ a b : GoTime, b.toNanos < a.toNanos → yearsBetween a b < 0) := by
  refine ⟨fun cfs r t => ?_, fun a b h => ?_, fun a b h => ?_⟩
  · unfold CashFlows.NPV CashFlow.PresentValue CashFlow.YearsFrom
    rw [foldl_add_eq_sum, zero_add]
  · unfold yearsBetween
    rw [if_neg (ne_of_lt h), if_neg (not_lt.mpr h.le)]
    exact yearsCore_pos a b h
  · unfold yearsBetween
    rw [if_neg (ne_of_gt h), if_pos h, neg_lt, neg_zero]
    exact yearsCore_pos b a h

/-- 2020-01-01 00:00:00 UTC. -/
def t2020 : GoTime := ⟨⟨2020, 1, 1, 0⟩, by decide⟩

/-- 2021-06-15 00:00:00 UTC. -/
def t2021 : GoTime := ⟨⟨2021, 6, 15, 0⟩, by decide⟩

theorem npv_is_sum_of_present_values_witness :
    t2020.toNanos < t2021.toNanos ∧ 0 < yearsBetween t2020 t2021 :=
  ⟨by decide, npv_is_sum_of_present_values.2.1 t2020 t2021 (by decide)⟩

/-!
## Sorting (`CashFlows.Sort`, `cash_flow.go` lines 139–143)

`Sort` calls Go's `sort.Slice` with the comparator
`less i j := cfs[i].Date.Before(cfs[j].Date)`.  `sort.Slice` guarantees
only that the result is a permutation ordered by the comparator; it is
documented as **not** stable (`sort.SliceStable` would be).  We therefore
model it by its contract `sortSliceSpec`, and separately provide the
deterministic refinement `sortCF` (an insertion sort, which satisfies the
contract) for use inside the `IRR` embedding, whose observable behaviour
does not depend on which contract-satisfying permutation is produced.
-/

/-- The nonstrict order induced by the comparator:
`cfLE x y ↔ ¬ y.Date.Before(x.Date)`. -/
def cfLE (x y : CashFlow) : Prop := x.Date.toNanos ≤ y.Date.toNanos

theorem cfLE_iff_not_before (x y : CashFlow) :
    cfLE x y ↔ ¬ (y.Date.toNanos < x.Date.toNanos) := not_lt.symm

instance : DecidableRel cfLE := fun x y => Int.decLe _ _

instance : IsTotal CashFlow cfLE := ⟨fun a b => le_total _ _⟩

instance : IsTrans CashFlow cfLE := ⟨fun _ _ _ h1 h2 => le_trans h1 h2⟩

/-- Postcondition of `sort.Slice cfs less`: some permutation of the input
that is pairwise ordered by the (nonstrict) comparator order. -/
def sortSliceSpec (l l' : List CashFlow) : Prop :=
  l'.Perm l ∧ l'.Pairwise cfLE

/-- A deterministic refinement of `sortSliceSpec` (insertion sort). -/
def sortCF (cfs : List CashFlow) : List CashFlow := List.insertionSort cfLE cfs

/-- Flows with equal instants keep their original relative order: for every
instant, the subsequence of flows dated at that instant is unchanged. -/
def keepsEqualInstantOrder (l l' : List CashFlow) : Prop :=
  ∀ t : GoTime, l'.filter (fun cf => decide (cf.Date = t))
    = l.filter (fun cf => decide (cf.Date = t))

/-- Value-1 flow at 2020-01-01. -/
noncomputable def cfA : CashFlow := ⟨1, t2020⟩

/-- Value-2 flow at the same instant 2020-01-01. -/
noncomputable def cfB : CashFlow := ⟨2, t2020⟩

/-- C1 counterexample: `sort.Slice` is not guaranteed stable, and its
contract admits an output reversing two equal-instant flows: the reversal
of `[cfA, cfB]` (equal dates) satisfies the sort contract but does not
keep the original relative order of the equal-instant flows. -/
theorem sort_stable_cex :
    sortSliceSpec [cfA, cfB] [cfB, cfA] ∧
      ¬ keepsEqualInstantOrder [cfA, cfB] [cfB, cfA] := by
  refine ⟨⟨List.Perm.swap cfA cfB [], ?_⟩, ?_⟩
  · simp [cfLE, cfA, cfB]
  · intro h
    have h2 := h t2020
    norm_num [cfA, cfB, CashFlow.mk.injEq] at h2

/-- C1 amended: every outcome admitted by the `sort.Slice` contract is
ascending (nonstrictly) by instant and preserves the multiset of
`(value, instant)` pairs — it is a permutation, so every flow present
before is present after; and the contract is satisfiable for every input
(witnessed by insertion sort).  Stability on equal instants is *not*
guaranteed (see `sort_stable_cex`). -/
theorem sort_ascending_and_preserving :
    (∀ l : List CashFlow, sortSliceSpec l (sortCF l)) ∧
      (∀ l l' : List CashFlow, sortSliceSpec l l' →
        l'.Pairwise cfLE ∧ ∀ cf : CashFlow, cf ∈ l' ↔ cf ∈ l) := by
  constructor
  · intro l
    exact ⟨List.perm_insertionSort cfLE l, List.sorted_insertionSort cfLE l⟩
  · intro l l' h
    exact ⟨h.2, fun cf => h.1.mem_iff⟩

theorem sort_ascending_and_preserving_witness :
    (sortCF [cfA, cfB]).Pairwise cfLE ∧
      (∀ cf : CashFlow, cf ∈ sortCF [cfA, cfB] ↔ cf ∈ [cfA, cfB]) :=
  sort_ascending_and_preserving.2 [cfA, cfB] (sortCF [cfA, cfB])
    (sort_ascending_and_preserving.1 [cfA, cfB])

/-!
## IRR (`cash_flow.go` lines 160–205)
-/

/-- Modelled from the spec: the repository's `RateAnnualContinuous` rate
type — the one `CashFlows.IRR` constructs and returns — is not among the
provided sources (only its callers and tests are).  Per spec §3/§4.1 the
continuous variant carries one value with `DiscountFactor = e^(−v·t)`,
`ToAnnualEffective = e^v − 1` and `ToContinuous = v`. -/
structure RateAnnualContinuous where
  Value : ℝ

/-- The `Rate` capability record of a `RateAnnualContinuous`. -/
noncomputable def RateAnnualContinuous.toRate (r : RateAnnualContinuous) : Rate :=
  ⟨fun years => Real.exp (r.Value * -years), Real.exp r.Value - 1, r.Value⟩

/-- The three failure conditions of `IRR` (`errors.New`/`fmt.Errorf`). -/
inductive IRRError
  | insufficientInput
  | couldNotBracket
  | nonConvergence
deriving DecidableEq

noncomputable instance : Inhabited CashFlow := ⟨⟨0, t2020⟩⟩

/-- The closure `npv` of `IRR`: NPV of the (sorted) slice at continuous
rate `r`, valued at the slice's first element. -/
noncomputable def orderedNPV (ordered : CashFlows) (r : ℝ) : ℝ :=
  CashFlows.NPV ordered (RateAnnualContinuous.toRate ⟨r⟩) ordered.headI.Date

open Classical in
/-- The upper-bound expansion loop (`cash_flow.go` lines 189–192) with
explicit fuel: while `npvLow·f(high) > 0` and `high < 1000`, double `high`.
Fuel 14 is enough to run the Go loop to completion from `high = 0.10`
(see `expandHigh_stable`). -/
noncomputable def expandHigh (f : ℝ → ℝ) (npvLow : ℝ) : ℕ → ℝ → ℝ
  | 0, high => high
  | n + 1, high =>
    if npvLow * f high > 0 ∧ high < 1000 then expandHigh f npvLow n (high * 2)
    else high

theorem expandHigh_of_ge (f : ℝ → ℝ) (fl high : ℝ) (h : (1000:ℝ) ≤ high) :
    ∀ n, expandHigh f fl n high = high := by
  intro n
  cases n with
  | zero => rfl
  | succ n =>
    show expandHigh f fl (n + 1) high = high
    unfold expandHigh
    rw [if_neg fun hc => absurd hc.2 (not_lt.mpr h)]

/-- Fuel-independence of the expansion loop: once the fuel is enough to
push `high` past the 1000 ceiling, more fuel does not change the result —
the Go `while` loop terminates after finitely many doublings. -/
theorem expandHigh_stable (f : ℝ → ℝ) (fl : ℝ) :
    ∀ n m : ℕ, ∀ high : ℝ, n ≤ m → (1000:ℝ) ≤ 2 ^ n * high →
      expandHigh f fl m high = expandHigh f fl n high := by
  intro n
  induction n with
  | zero =>
    intro m high _ hbound
    rw [pow_zero, one_mul] at hbound
    rw [expandHigh_of_ge f fl high hbound m]
    rfl
  | succ n ih =>
    intro m high hnm hbound
    obtain ⟨m', rfl⟩ : ∃ m', m = m' + 1 := ⟨m - 1, by omega⟩
    have heq : (2:ℝ) ^ (n + 1) * high = 2 ^ n * (high * 2) := by ring
    by_cases hc : fl * f high > 0 ∧ high < 1000
    · show expandHigh f fl (m' + 1) high = expandHigh f fl (n + 1) high
      unfold expandHigh
      rw [if_pos hc, if_pos hc]
      exact ih m' (high * 2) (by omega) (by linarith)
    · show expandHigh f fl (m' + 1) high = expandHigh f fl (n + 1) high
      unfold expandHigh
      rw [if_neg hc, if_neg hc]

open Classical in
/-- `IRR` after the empty-input check, applied to the sorted private copy
(`cash_flow.go` lines 169–204).  `brent` abstracts the external
`rootfinding.Brent` call; `none` models its failure to converge. -/
noncomputable def IRRfromOrdered (brent : (ℝ → ℝ) → ℝ → ℝ → ℕ → Option ℝ)
    (ordered : CashFlows) : Except IRRError RateAnnualContinuous :=
  let npv := orderedNPV ordered
  let npvLowerBound := npv (-0.999999)
  let upperBoundRate := expandHigh npv npvLowerBound 14 0.10
  if npvLowerBound * npv upperBoundRate > 0 then .error .couldNotBracket
  else
    match brent npv (-0.999999) upperBoundRate 12 with
    | none => .error .nonConvergence
    | some root => .ok ⟨root⟩

/-- `CashFlows.IRR`: empty-input check, then the bracketing and refinement
phases on a sorted private copy. -/
noncomputable def IRR (brent : (ℝ → ℝ) → ℝ → ℝ → ℕ → Option ℝ)
    (cashFlows : CashFlows) : Except IRRError RateAnnualContinuous :=
  match cashFlows with
  | [] => .error .insufficientInput
  | c :: rest => IRRfromOrdered brent (sortCF (c :: rest))

theorem irrFromOrdered_ne_insufficient
    (brent : (ℝ → ℝ) → ℝ → ℝ → ℕ → Option ℝ) (ordered : CashFlows) :
    IRRfromOrdered brent ordered ≠ .error .insufficientInput := by
  simp only [IRRfromOrdered]
  split
  · simp
  · split <;> simp

/-- C3: `IRR` fails with the insufficient-input condition on the empty
collection, and only there: every non-empty collection proceeds past the
input check and can produce any outcome except that condition. -/
theorem irr_insufficient_iff_empty :
    (∀ brent, IRR brent [] = .error .insufficientInput) ∧
      (∀ brent cfs, cfs ≠ [] → IRR brent cfs ≠ .error .insufficientInput) := by
  refine ⟨fun brent => rfl, fun brent cfs hne => ?_⟩
  match cfs with
  | [] => exact absurd rfl hne
  | c :: rest =>
    show IRRfromOrdered brent (sortCF (c :: rest)) ≠ .error .insufficientInput
    exact irrFromOrdered_ne_insufficient brent (sortCF (c :: rest))

theorem irr_insufficient_iff_empty_witness :
    ([cfA] ≠ ([] : CashFlows)) ∧
      IRR (fun _ _ _ _ => none) [cfA] ≠ .error .insufficientInput :=
  ⟨by simp, irr_insufficient_iff_empty.2 (fun _ _ _ _ => none) [cfA] (by simp)⟩

/-- C2: for every non-empty collection, the anchor (head of the sorted
copy) is an earliest instant; the bracket-expansion loop is fuel-stable at
fuel 14 (it always terminates after finitely many doublings, since
`0.10·2¹⁴ ≥ 1000`); and `IRR` returns the could-not-bracket error exactly
when `f(low)·f(high)` is still positive after the expansion stops, with
`f = orderedNPV (sortCF cfs)`, `low = −0.999999` and `high` the expansion
result started from `0.10`. -/
theorem irr_bracketing (brent : (ℝ → ℝ) → ℝ → ℝ → ℕ → Option ℝ)
    (cfs : CashFlows) (hne : cfs ≠ []) :
    (∀ cf ∈ cfs, ((sortCF cfs).headI.Date).toNanos ≤ cf.Date.toNanos) ∧
      (∀ n, 14 ≤ n →
        expandHigh (orderedNPV (sortCF cfs)) (orderedNPV (sortCF cfs) (-0.999999)) n 0.10
          = expandHigh (orderedNPV (sortCF cfs))
              (orderedNPV (sortCF cfs) (-0.999999)) 14 0.10) ∧
        (IRR brent cfs = .error .couldNotBracket ↔
          orderedNPV (sortCF cfs) (-0.999999)
              * orderedNPV (sortCF cfs)
                (expandHigh (orderedNPV (sortCF cfs))
                  (orderedNPV (sortCF cfs) (-0.999999)) 14 0.10) > 0) := by
  refine ⟨?_, ?_, ?_⟩
  · intro cf hcf
    have hsorted : (sortCF cfs).Pairwise cfLE := List.sorted_insertionSort cfLE cfs
    have hperm : (sortCF cfs).Perm cfs := List.perm_insertionSort cfLE cfs
    have hcf' : cf ∈ sortCF cfs := hperm.mem_iff.mpr hcf
    match hs : sortCF cfs with
    | [] => rw [hs] at hcf'; cases hcf'
    | s0 :: stail =>
      rw [hs] at hcf' hsorted
      rcases List.mem_cons.mp hcf' with rfl | hmem
      · simp
      · have hle := (List.pairwise_cons.mp hsorted).1 cf hmem
        simpa [cfLE] using hle
  · intro n hn
    exact expandHigh_stable _ _ 14 n 0.10 hn (by norm_num)
  · obtain ⟨c, rest, rfl⟩ := List.exists_cons_of_ne_nil hne
    show IRRfromOrdered brent (sortCF (c :: rest)) = _ ↔ _
    simp only [IRRfromOrdered]
    split
    · next hcond => exact iff_of_true rfl hcond
    · next hcond =>
      refine iff_of_false ?_ hcond
      split <;> simp

theorem irr_bracketing_witness :
    ([(⟨10, t2020⟩ : CashFlow), ⟨10, t2021⟩] ≠ ([] : CashFlows)) ∧
      (IRR (fun _ _ _ _ => none) [(⟨10, t2020⟩ : CashFlow), ⟨10, t2021⟩]
          = .error .couldNotBracket ↔
        orderedNPV (sortCF [(⟨10, t2020⟩ : CashFlow), ⟨10, t2021⟩]) (-0.999999)
            * orderedNPV (sortCF [(⟨10, t2020⟩ : CashFlow), ⟨10, t2021⟩])
              (expandHigh (orderedNPV (sortCF [(⟨10, t2020⟩ : CashFlow), ⟨10, t2021⟩]))
                (orderedNPV (sortCF [(⟨10, t2020⟩ : CashFlow), ⟨10, t2021⟩]) (-0.999999))
                14 0.10) > 0) :=
  ⟨by simp,
    (irr_bracketing (fun _ _ _ _ => none)
      [(⟨10, t2020⟩ : CashFlow), ⟨10, t2021⟩] (by simp)).2.2⟩

/-- The Go call `cashFlows.IRR()` with slices made explicit: `heap` is the
backing store, `ref` the caller's slice.  The body reads the caller's
slice, allocates a fresh slice (`make` + `copy`, modelled as appending a
copy to the heap), sorts that fresh slice in place (`List.set` at its
index), and runs the remainder on the sorted copy. -/
noncomputable def IRRheap (brent : (ℝ → ℝ) → ℝ → ℝ → ℕ → Option ℝ)
    (heap : List CashFlows) (ref : ℕ) :
    List CashFlows × Except IRRError RateAnnualContinuous :=
  match heap.getD ref [] with
  | [] => (heap, .error .insufficientInput)
  | c :: rest =>
    let heap1 := heap ++ [c :: rest]
    let orderedRef := heap.length
    let heap2 := heap1.set orderedRef (sortCF (heap1.getD orderedRef []))
    (heap2, IRRfromOrdered brent (heap2.getD orderedRef []))

theorem getD_concat_length (heap : List CashFlows) (x : CashFlows) :
    (heap ++ [x]).getD heap.length [] = x := by
  rw [List.getD_eq_getElem?_getD, List.getElem?_concat_length]
  rfl

/-- C9: `IRR` never mutates the caller's collection: after the call the
caller's slice holds the same flows in the same order, whatever the
outcome — and the outcome is exactly the functional `IRR` of the caller's
flows (only the private copy is sorted). -/
theorem irr_leaves_caller_untouched (brent : (ℝ → ℝ) → ℝ → ℝ → ℕ → Option ℝ)
    (heap : List CashFlows) (ref : ℕ) (h : ref < heap.length) :
    (IRRheap brent heap ref).1.getD ref [] = heap.getD ref [] ∧
      (IRRheap brent heap ref).2 = IRR brent (heap.getD ref []) := by
  unfold IRRheap
  cases hc : heap.getD ref [] with
  | nil => exact ⟨hc, rfl⟩
  | cons c rest =>
    have happend : (heap ++ [c :: rest]).getD heap.length [] = c :: rest :=
      getD_concat_length heap (c :: rest)
    have hset : ((heap ++ [c :: rest]).set heap.length
        (sortCF ((heap ++ [c :: rest]).getD heap.length []))).getD heap.length []
          = sortCF (c :: rest) := by
      rw [happend, List.getD_eq_getElem?_getD, List.getElem?_set_self
        (by simp : heap.length < (heap ++ [c :: rest]).length)]
      rfl
    constructor
    · show ((heap ++ [c :: rest]).set heap.length
        (sortCF ((heap ++ [c :: rest]).getD heap.length []))).getD ref [] = _
      rw [List.getD_eq_getElem?_getD,
        List.getElem?_set_ne (by omega : heap.length ≠ ref),
        List.getElem?_append_left h, ← List.getD_eq_getElem?_getD, hc]
    · show IRRfromOrdered brent _ = _
      rw [hset]
      rfl

theorem irr_leaves_caller_untouched_witness :
    (0 < ([[cfA]] : List CashFlows).length) ∧
      ((IRRheap (fun _ _ _ _ => none) [[cfA]] 0).1.getD 0 []
          = ([[cfA]] : List CashFlows).getD 0 [] ∧
        (IRRheap (fun _ _ _ _ => none) [[cfA]] 0).2
          = IRR (fun _ _ _ _ => none) (([[cfA]] : List CashFlows).getD 0 [])) :=
  ⟨by simp, irr_leaves_caller_untouched (fun _ _ _ _ => none) [[cfA]] 0 (by simp)⟩
